import Mathlib

/-!
Verification of the scheduler core of `src/async-runtime/src/runtime.rs`.

The scheduler is concurrent Rust; we embed it as a labeled transition system.
Each `Label` is one atomic action some thread can take: a call to
`Handle::spawn`, a call to the wake protocol (`ArcWake::wake_by_ref` on a
`Task`), dropping a `JoinHandle` (closing the result channel), or one of the
sub-steps of a `Worker::run` loop iteration (dequeue attempt / park, acquiring
the task's future mutex, the poll itself with its completion branch).
`step` executes one label, `execTrace` a whole interleaving; safety and
invariance claims are proved over all traces from the initial state.

Spawned computations: `Handle::spawn` (runtime.rs:48-51) wraps every user
future in the async block `async { let boxed: Box<TaskResult> =
Box::new(future.await); boxed }`.  We model a deterministic computation by the
number of polls it stays pending before completing with a `Nat` value.  A
Rust async block panics when polled again after it has returned
`Poll::Ready` ("resumed after completion"), so the model's `pollFuture`
yields `panicked` in that case.
-/

namespace AsyncRuntime

/-- Outcome of one poll of the boxed wrapper future built by `Handle::spawn`:
pending, ready with a value, or a panic (async block resumed after
completion). -/
inductive Poll where
  | pending
  | ready (v : Nat)
  | panicked
deriving DecidableEq, Repr

/-- A deterministic spawned computation: stays `Pending` for `pollsNeeded`
polls, then completes with `value`. -/
structure FutureSpec where
  pollsNeeded : Nat
  value : Nat
deriving DecidableEq, Repr

/-- Mutable progress state of one pinned wrapper future: how many pending
polls happened so far and whether it already returned `Ready`. -/
structure FutState where
  polls : Nat
  completed : Bool
deriving DecidableEq, Repr

/-- Poll the wrapper async block once (the `future.as_mut().poll(context)` at
runtime.rs:186).  Polling after completion is the async-block panic. -/
def pollFuture (spec : FutureSpec) (st : FutState) : Poll × FutState :=
  if st.completed then (Poll.panicked, st)
  else if spec.pollsNeeded ≤ st.polls then
    (Poll.ready spec.value, { st with completed := true })
  else
    (Poll.pending, { st with polls := st.polls + 1 })

/-- One-shot result channel (`crossbeam_channel::bounded(1)` at
runtime.rs:53): `closed` once the `JoinHandle` receiver is dropped, `buf` the
values sent so far. -/
structure Channel where
  closed : Bool
  buf : List Nat
deriving DecidableEq, Repr

/-- `Task` (runtime.rs:208-213): the computation behind a `Mutex` (the mutex
state lives in `SchedState.locks`), and the optional one-shot
`result_sender`, stored as a channel id.  The `task_sender` and `condvar`
fields are references to the single shared global queue and parking signal,
which live once in `SchedState`. -/
structure Task where
  future : FutureSpec
  result_sender : Option Nat
deriving DecidableEq, Repr

/-- Phase of one worker thread inside its `Worker::run` loop: at the top of
the loop, having dequeued task `t` and about to lock its future mutex,
holding the mutex and polling `t`, or panicked. -/
inductive WorkerPhase where
  | idle
  | locking (t : Nat)
  | polling (t : Nat)
  | panicked
deriving DecidableEq, Repr

/-- Timeout of the parked wait, from `Duration::from_millis(100)` at
runtime.rs:174. -/
def parkTimeoutMs : Nat := 100

/-- Global state of the scheduler.  Tasks are identified by their index into
`tasks`; `futStates` and `locks` are indexed in parallel (`locks t` is the
holder of task `t`'s future mutex).  `channels` holds every one-shot result
channel.  `global_queue` is the shared ready-queue, `local_queues` the
per-worker queues (never fed by the current code), `workers` the phase of
each worker loop.  `notifications` counts `condvar.1.notify_one()` calls and
`parkWaits` records the timeout of each parked wait. -/
structure SchedState where
  tasks : List Task
  futStates : List FutState
  locks : List (Option Nat)
  channels : List Channel
  global_queue : List Nat
  local_queues : List (List Nat)
  workers : List WorkerPhase
  notifications : Nat
  parkWaits : List Nat
deriving DecidableEq, Repr

/-- `Handle::spawn` (runtime.rs:44-67): wrap the future, make a fresh
one-shot result channel, build the `Task` with `result_sender = Some(..)`,
send it on the shared queue, `notify_one` the parking signal; return the new
state together with the channel id whose receive side the returned
`JoinHandle` wraps. -/
def spawnOp (s : SchedState) (fs : FutureSpec) : SchedState × Nat :=
  let chid := s.channels.length
  let tid := s.tasks.length
  ({ s with
      tasks := s.tasks ++ [{ future := fs, result_sender := some chid }],
      futStates := s.futStates ++ [{ polls := 0, completed := false }],
      locks := s.locks ++ [none],
      channels := s.channels ++ [{ closed := false, buf := [] }],
      global_queue := s.global_queue ++ [tid],
      notifications := s.notifications + 1 }, chid)

/-- The completion branch of `Worker::run` (runtime.rs:190-199): if the task
has a `result_sender`, send the boxed value on it; a send error (the
receiver side — the `JoinHandle` — was dropped, closing the channel) is
ignored with `let _ = result_sender.send(result)`. -/
def sendResult (channels : List Channel) (sender : Option Nat) (v : Nat) : List Channel :=
  match sender with
  | some ch =>
      match channels.get? ch with
      | some c =>
          if c.closed then channels
          else channels.set ch { c with buf := c.buf ++ [v] }
      | none => channels
  | none => channels

/-- Atomic actions of the system. -/
inductive Label where
  | spawn (fs : FutureSpec)
  | wake (t : Nat)
  | dropReceiver (ch : Nat)
  | dequeue (w : Nat)
  | acquire (w : Nat)
  | poll (w : Nat)
deriving DecidableEq, Repr

/-- One atomic action.  `none` means the action is not enabled in `s` (e.g.
acquiring a mutex someone holds blocks, a non-idle worker cannot dequeue).

* `spawn` is `Handle::spawn` (runtime.rs:44-67).
* `wake` is `ArcWake::wake_by_ref` (runtime.rs:215-225): clone the `Arc`,
  send the task on its `task_sender` (the shared queue), `notify_one`.
* `dropReceiver` models dropping the `JoinHandle`, closing its channel.
* `dequeue` is one pass of the pop sequence at runtime.rs:152-178: try the
  local queue, else the global queue, else park on the condvar with a 100 ms
  timeout and continue the loop.
* `acquire` is `task.future.lock().unwrap()` (runtime.rs:182), enabled only
  when no other worker holds that task's mutex.
* `poll` is the `match future.as_mut().poll(context)` (runtime.rs:186-200):
  on `Pending` nothing further happens; on `Ready(result)`, if
  `task.result_sender` is `Some`, the send is attempted and a failure from a
  dropped receiver is ignored; the mutex guard is dropped and the loop
  continues.  A panic in the poll kills the worker thread. -/
def step (s : SchedState) (l : Label) : Option SchedState :=
  match l with
  | .spawn fs => some (spawnOp s fs).1
  | .wake t =>
      match s.tasks.get? t with
      | some _ =>
          some { s with
            global_queue := s.global_queue ++ [t],
            notifications := s.notifications + 1 }
      | none => none
  | .dropReceiver ch =>
      match s.channels.get? ch with
      | some c => some { s with channels := s.channels.set ch { c with closed := true } }
      | none => none
  | .dequeue w =>
      match s.workers.get? w, s.local_queues.get? w with
      | some .idle, some (t :: rest) =>
          some { s with
            local_queues := s.local_queues.set w rest,
            workers := s.workers.set w (.locking t) }
      | some .idle, some [] =>
          match s.global_queue with
          | t :: rest =>
              some { s with
                global_queue := rest,
                workers := s.workers.set w (.locking t) }
          | [] => some { s with parkWaits := s.parkWaits ++ [parkTimeoutMs] }
      | _, _ => none
  | .acquire w =>
      match s.workers.get? w with
      | some (.locking t) =>
          match s.locks.get? t with
          | some none =>
              some { s with
                locks := s.locks.set t (some w),
                workers := s.workers.set w (.polling t) }
          | _ => none
      | _ => none
  | .poll w =>
      match s.workers.get? w with
      | some (.polling t) =>
          match s.tasks.get? t, s.futStates.get? t with
          | some task, some fst =>
              match pollFuture task.future fst with
              | (.pending, fst') =>
                  some { s with
                    futStates := s.futStates.set t fst',
                    locks := s.locks.set t none,
                    workers := s.workers.set w .idle }
              | (.ready v, fst') =>
                  some { s with
                    channels := sendResult s.channels task.result_sender v,
                    futStates := s.futStates.set t fst',
                    locks := s.locks.set t none,
                    workers := s.workers.set w .idle }
              | (.panicked, fst') =>
                  some { s with
                    futStates := s.futStates.set t fst',
                    workers := s.workers.set w .panicked }
          | _, _ => none
      | _ => none

/-- Run a whole interleaving of atomic actions. -/
def execTrace (s : SchedState) (ls : List Label) : Option SchedState :=
  match ls with
  | [] => some s
  | l :: rest =>
      match step s l with
      | some s' => execTrace s' rest
      | none => none

/-- State right after `new_runtime` started `n` worker loops: no tasks yet,
every worker at the top of its loop with an empty local queue. -/
def initState (n : Nat) : SchedState :=
  { tasks := []
    futStates := []
    locks := []
    channels := []
    global_queue := []
    local_queues := List.replicate n []
    workers := List.replicate n .idle
    notifications := 0
    parkWaits := [] }

/-- `Handle` (runtime.rs:22-27) is a freely cloneable capability holding
references to the shared queue sender, the thread pool and the parking
signal; those shared components live once per runtime in the model, so a
`Handle` value is identified by the runtime it references. -/
structure Handle where
  runtimeId : Nat
deriving DecidableEq, Repr

/-- `current()` (runtime.rs:85-92): read the calling thread's `HANDLE` slot;
the `expect` on `None` is a fatal panic with this message, modelled as
`Except.error`. -/
def current (tls : Option Handle) : Except String Handle :=
  match tls with
  | some handle => Except.ok handle
  | none => Except.error "The async runtime is None, maybe you forgot to make one"

/-- `set_current(handle)` (runtime.rs:94-98): overwrite the calling thread's
`HANDLE` slot, silently replacing any prior registration. -/
def set_current (handle : Handle) (_tls : Option Handle) : Option Handle :=
  some handle

/-- Modelled from the spec: `JoinHandle::join` lives in `crate::threadpool`,
which is not under `src/`.  Per the spec, a join handle owns the receive
side of the one-shot result channel and `join` blocks the calling thread
until a value arrives or the channel closes.  Modelled relative to the
scheduler activity `ls` that happens while the caller blocks: run that
interleaving, then receive the first value of the channel (`none` when the
interleaving is not enabled or no value was delivered). -/
def joinOp (s : SchedState) (ls : List Label) (ch : Nat) : Option Nat :=
  match execTrace s ls with
  | some s' =>
      match s'.channels.get? ch with
      | some c => c.buf.head?
      | none => none
  | none => none

/-- `Handle::block_on` (runtime.rs:77-82): the body is exactly
`self.spawn(future).join()`. -/
def block_on (s : SchedState) (ls : List Label) (fs : FutureSpec) : Option Nat :=
  joinOp (spawnOp s fs).1 ls (spawnOp s fs).2

/-- Stated from the spec's words for the refinement comparison of C2: first
`spawn` the computation, then a synchronous `join` of the returned join
handle on the calling thread; the joined value is the result. -/
def spawn_then_join (s : SchedState) (ls : List Label) (fs : FutureSpec) : Option Nat :=
  let spawned := spawnOp s fs
  let joined := joinOp spawned.1 ls spawned.2
  joined

/-- Modelled from the spec: the thread-pool collaborator (`crate::threadpool`,
used via `ThreadPool::new` and `ThreadPool::spawn_blocking`) is not under
`src/`.  Per the spec's collaborator contract, `new(total_thread_budget)`
reserves that many physical worker threads and `spawn_blocking(closure)`
runs one closure on a pool thread.  The model records the reserved thread
budget and how many closures were submitted to the pool. -/
structure ThreadPool where
  budget : Nat
  submitted : Nat
deriving DecidableEq, Repr

def ThreadPool.new (total_thread_budget : Nat) : ThreadPool :=
  { budget := total_thread_budget, submitted := 0 }

def ThreadPool.spawn_blocking (pool : ThreadPool) : ThreadPool :=
  { pool with submitted := pool.submitted + 1 }

/-- Outcome of `new_runtime`: the pool it built, the calling thread's
`HANDLE` slot after registration, and the returned handle. -/
structure RuntimeInit where
  thread_pool : ThreadPool
  tlsAfter : Option Handle
  returned : Handle
deriving DecidableEq, Repr

/-- `new_runtime` (runtime.rs:100-117): create the pool with
`max_blocking_threads + num_worker` threads, create the shared queue and
condvar, build the `Handle`, register it with `set_current`, then submit one
`Worker::run` loop closure to the pool per worker and return the handle.
`tls` is the calling thread's slot before the call; `rid` identifies the
runtime's shared state. -/
def new_runtime (num_worker max_blocking_threads : Nat) (tls : Option Handle)
    (rid : Nat) : RuntimeInit :=
  let thread_pool := ThreadPool.new (max_blocking_threads + num_worker)
  let handle : Handle := { runtimeId := rid }
  let tls' := set_current handle tls
  let pool' := (List.range num_worker).foldl (fun p _ => p.spawn_blocking) thread_pool
  { thread_pool := pool', tlsAfter := tls', returned := handle }

/-! ### List helper lemmas -/

theorem lt_length_of_get?_eq_some {α : Type} {l : List α} {i : Nat} {a : α}
    (h : l.get? i = some a) : i < l.length := by
  rcases List.get?_eq_some.mp h with ⟨hlt, _⟩
  exact hlt

theorem get?_set_self {α : Type} {l : List α} {i : Nat} (a : α) (h : i < l.length) :
    (l.set i a).get? i = some a := by
  rw [List.get?_eq_getElem?]
  exact List.getElem?_set_eq_of_lt a h

theorem get?_set_ne {α : Type} (l : List α) (i : Nat) {j : Nat} (a : α) (h : i ≠ j) :
    (l.set i a).get? j = l.get? j := by
  simp [List.get?_eq_getElem?, List.getElem?_set_ne, h]

theorem get?_append_left {α : Type} {l : List α} (l₂ : List α) {i : Nat} (h : i < l.length) :
    (l ++ l₂).get? i = l.get? i := by
  simp [List.get?_eq_getElem?, List.getElem?_append_left, h]

/-! ### C1: single poller per task -/

/-- A worker that is polling a task's future holds that task's future mutex:
the phase `polling t` is only entered through a successful
`task.future.lock()`. -/
def PollingLocked (s : SchedState) : Prop :=
  ∀ w t, s.workers.get? w = some (.polling t) → s.locks.get? t = some (some w)

theorem step_polling_locked {s s' : SchedState} {l : Label}
    (hstep : step s l = some s') (hinv : PollingLocked s) : PollingLocked s' := by
  intro w t hw
  cases l with
  | spawn fs =>
      obtain rfl : (spawnOp s fs).1 = s' := Option.some.inj (by simpa only [step] using hstep)
      have hl := hinv w t hw
      exact get?_append_left _ (lt_length_of_get?_eq_some hl) ▸ hl
  | wake t₀ =>
      simp only [step] at hstep
      split at hstep
      · obtain rfl := Option.some.inj hstep
        exact hinv w t hw
      · exact absurd hstep (by simp)
  | dropReceiver ch =>
      simp only [step] at hstep
      split at hstep
      · obtain rfl := Option.some.inj hstep
        exact hinv w t hw
      · exact absurd hstep (by simp)
  | dequeue w₀ =>
      simp only [step] at hstep
      split at hstep
      case _ t₀ rest hw₀ hlq =>
        obtain rfl := Option.some.inj hstep
        by_cases hww : w₀ = w
        · subst hww
          rw [get?_set_self _ (lt_length_of_get?_eq_some hw₀)] at hw
          exact absurd (Option.some.inj hw) (by simp)
        · rw [get?_set_ne _ _ _ hww] at hw
          exact hinv w t hw
      case _ hw₀ hlq =>
        split at hstep
        case _ t₀ rest =>
          obtain rfl := Option.some.inj hstep
          by_cases hww : w₀ = w
          · subst hww
            rw [get?_set_self _ (lt_length_of_get?_eq_some hw₀)] at hw
            exact absurd (Option.some.inj hw) (by simp)
          · rw [get?_set_ne _ _ _ hww] at hw
            exact hinv w t hw
        case _ =>
          obtain rfl := Option.some.inj hstep
          exact hinv w t hw
      case _ => exact absurd hstep (by simp)
  | acquire w₀ =>
      simp only [step] at hstep
      split at hstep
      case _ t₀ hw₀ =>
        split at hstep
        case _ hl₀ =>
          obtain rfl := Option.some.inj hstep
          by_cases hww : w₀ = w
          · subst hww
            rw [get?_set_self _ (lt_length_of_get?_eq_some hw₀)] at hw
            obtain rfl : t₀ = t := by
              have := Option.some.inj hw
              injection this
            rw [get?_set_self _ (lt_length_of_get?_eq_some hl₀)]
          · rw [get?_set_ne _ _ _ hww] at hw
            have hl := hinv w t hw
            have htt : t₀ ≠ t := by
              intro h
              subst h
              rw [hl₀] at hl
              exact absurd (Option.some.inj hl) (by simp)
            rw [get?_set_ne _ _ _ htt]
            exact hl
        case _ => exact absurd hstep (by simp)
      case _ => exact absurd hstep (by simp)
  | poll w₀ =>
      simp only [step] at hstep
      split at hstep
      case _ t₀ hw₀ =>
        split at hstep
        case _ task fst htask hfst =>
          have hl₀ := hinv w₀ t₀ hw₀
          split at hstep
          case _ fst' hpoll =>
            obtain rfl := Option.some.inj hstep
            by_cases hww : w₀ = w
            · subst hww
              rw [get?_set_self _ (lt_length_of_get?_eq_some hw₀)] at hw
              exact absurd (Option.some.inj hw) (by simp)
            · rw [get?_set_ne _ _ _ hww] at hw
              have hl := hinv w t hw
              have htt : t₀ ≠ t := by
                intro h
                subst h
                rw [hl₀] at hl
                have := Option.some.inj hl
                exact hww (by injection this)
              rw [get?_set_ne _ _ _ htt]
              exact hl
          case _ v fst' hpoll =>
            obtain rfl := Option.some.inj hstep
            by_cases hww : w₀ = w
            · subst hww
              rw [get?_set_self _ (lt_length_of_get?_eq_some hw₀)] at hw
              exact absurd (Option.some.inj hw) (by simp)
            · rw [get?_set_ne _ _ _ hww] at hw
              have hl := hinv w t hw
              have htt : t₀ ≠ t := by
                intro h
                subst h
                rw [hl₀] at hl
                have := Option.some.inj hl
                exact hww (by injection this)
              rw [get?_set_ne _ _ _ htt]
              exact hl
          case _ fst' hpoll =>
            obtain rfl := Option.some.inj hstep
            by_cases hww : w₀ = w
            · subst hww
              rw [get?_set_self _ (lt_length_of_get?_eq_some hw₀)] at hw
              exact absurd (Option.some.inj hw) (by simp)
            · rw [get?_set_ne _ _ _ hww] at hw
              exact hinv w t hw
        case _ => exact absurd hstep (by simp)
      case _ => exact absurd hstep (by simp)

theorem execTrace_polling_locked {ls : List Label} {s s' : SchedState}
    (h : execTrace s ls = some s') (hinv : PollingLocked s) : PollingLocked s' := by
  induction ls generalizing s with
  | nil =>
      obtain rfl := Option.some.inj h
      exact hinv
  | cons l rest ih =>
      simp only [execTrace] at h
      split at h
      case _ s₁ heq => exact ih h (step_polling_locked heq hinv)
      case _ => exact absurd h (by simp)

theorem initState_polling_locked (n : Nat) : PollingLocked (initState n) := by
  intro w t hw
  have := List.eq_of_mem_replicate (List.get?_mem hw)
  exact absurd this (by simp)

/-- C1: at most one thread resumes a given Task's computation at a time: in
every reachable state, a worker polling a task's future holds that task's
exclusive guard, and no two distinct workers are polling the same task —
wake calls may enqueue a task several times, but duplicate queue entries
never yield concurrent polls. -/
theorem single_poller_per_task (n : Nat) (ls : List Label) (s : SchedState)
    (h : execTrace (initState n) ls = some s) :
    (∀ w t, s.workers.get? w = some (.polling t) → s.locks.get? t = some (some w)) ∧
    (∀ w₁ w₂ t, s.workers.get? w₁ = some (.polling t) →
      s.workers.get? w₂ = some (.polling t) → w₁ = w₂) := by
  have hpl : PollingLocked s := execTrace_polling_locked h (initState_polling_locked n)
  refine ⟨hpl, ?_⟩
  intro w₁ w₂ t h1 h2
  have e1 := hpl w₁ t h1
  have e2 := hpl w₂ t h2
  have e3 : some (some w₁) = some (some w₂) := e1.symm.trans e2
  simpa using e3

/-- The state reached by: spawn one immediately-ready computation, worker 0
dequeues it and acquires its future mutex. -/
def c1State : SchedState :=
  { tasks := [{ future := ⟨1, 7⟩, result_sender := some 0 }]
    futStates := [{ polls := 0, completed := false }]
    locks := [some 0]
    channels := [{ closed := false, buf := [] }]
    global_queue := []
    local_queues := [[]]
    workers := [.polling 0]
    notifications := 1
    parkWaits := [] }

theorem single_poller_per_task_witness :
    execTrace (initState 1) [.spawn ⟨1, 7⟩, .dequeue 0, .acquire 0] = some c1State ∧
    (0 : Nat) = 0 :=
  ⟨by decide,
   (single_poller_per_task 1 [.spawn ⟨1, 7⟩, .dequeue 0, .acquire 0] c1State (by decide)).2
     0 0 0 (by decide) (by decide)⟩

/-! ### C2: block_on is spawn followed by join -/

/-- C2: for every computation, `Handle::block_on` is observationally equal to
`Handle::spawn` followed immediately by a synchronous `join` of the returned
join handle on the calling thread, whatever scheduler activity `ls` runs
while the caller blocks, and it returns the value so obtained. -/
theorem block_on_eq_spawn_then_join (s : SchedState) (ls : List Label) (fs : FutureSpec) :
    block_on s ls fs = spawn_then_join s ls fs :=
  rfl

/-! ### C3: what spawn does -/

/-- C3: `Handle::spawn` builds a Task around the computation together with a
fresh one-shot result channel (an id unused before the call, now holding an
open empty channel, recorded as the Task's `result_sender`), appends the
Task to the shared ready-queue, issues exactly one notification to the
parking signal, and hands the caller the receive side of that channel. -/
theorem spawn_builds_task_enqueues_notifies (s : SchedState) (fs : FutureSpec) :
    step s (.spawn fs) = some (spawnOp s fs).1 ∧
    s.channels.get? (spawnOp s fs).2 = none ∧
    (spawnOp s fs).1.channels.get? (spawnOp s fs).2 = some { closed := false, buf := [] } ∧
    (spawnOp s fs).1.tasks.get? s.tasks.length =
      some { future := fs, result_sender := some (spawnOp s fs).2 } ∧
    (spawnOp s fs).1.global_queue = s.global_queue ++ [s.tasks.length] ∧
    (spawnOp s fs).1.notifications = s.notifications + 1 := by
  refine ⟨rfl, ?_, ?_, ?_, rfl, rfl⟩
  · exact List.get?_len_le (Nat.le_refl _)
  · rw [List.get?_eq_getElem?]
    exact List.getElem?_concat_length _ _
  · rw [List.get?_eq_getElem?]
    exact List.getElem?_concat_length _ _

/-! ### C4: ambient registration -/

/-- C4: `current()` on a thread where `set_current` never ran fails fatally
with the usage-error message; after any `set_current(handle)` on the thread,
`current()` returns exactly the registered handle and never an absent
result. -/
theorem current_fatal_or_registered :
    current none =
      Except.error "The async runtime is None, maybe you forgot to make one" ∧
    ∀ (handle : Handle) (tls : Option Handle),
      current (set_current handle tls) = Except.ok handle :=
  ⟨rfl, fun _ _ => rfl⟩

/-! ### C9: new_runtime -/

theorem spawn_blocking_submitted (p : ThreadPool) :
    p.spawn_blocking.submitted = p.submitted + 1 :=
  rfl

theorem spawn_blocking_budget (p : ThreadPool) :
    p.spawn_blocking.budget = p.budget :=
  rfl

theorem foldl_spawn_blocking (n : Nat) (p : ThreadPool) :
    ((List.range n).foldl (fun q _ => q.spawn_blocking) p).submitted = p.submitted + n ∧
    ((List.range n).foldl (fun q _ => q.spawn_blocking) p).budget = p.budget := by
  induction n generalizing p with
  | zero => simp
  | succ m ih =>
      constructor
      · rw [List.range_succ, List.foldl_append, List.foldl_cons, List.foldl_nil,
          spawn_blocking_submitted, (ih p).1]
        omega
      · rw [List.range_succ, List.foldl_append, List.foldl_cons, List.foldl_nil,
          spawn_blocking_budget, (ih p).2]

/-- C9: `new_runtime(worker_count, max_blocking_threads)` reserves exactly
`worker_count + max_blocking_threads` threads from the thread-pool
collaborator, submits exactly `worker_count` Worker loops to pool threads,
registers the returned Handle as the calling thread's ambient scheduler, and
returns that Handle. -/
theorem new_runtime_reserves_and_starts (num_worker max_blocking_threads : Nat)
    (tls : Option Handle) (rid : Nat) :
    (new_runtime num_worker max_blocking_threads tls rid).thread_pool.budget =
      num_worker + max_blocking_threads ∧
    (new_runtime num_worker max_blocking_threads tls rid).thread_pool.submitted =
      num_worker ∧
    (new_runtime num_worker max_blocking_threads tls rid).tlsAfter =
      some (new_runtime num_worker max_blocking_threads tls rid).returned := by
  refine ⟨?_, ?_, rfl⟩
  · show ((List.range num_worker).foldl (fun p _ => p.spawn_blocking)
      (ThreadPool.new (max_blocking_threads + num_worker))).budget = _
    rw [(foldl_spawn_blocking _ _).2]
    show max_blocking_threads + num_worker = num_worker + max_blocking_threads
    omega
  · show ((List.range num_worker).foldl (fun p _ => p.spawn_blocking)
      (ThreadPool.new (max_blocking_threads + num_worker))).submitted = _
    rw [(foldl_spawn_blocking _ _).1]
    show 0 + num_worker = num_worker
    omega

/-! ### C5: completion delivers or silently ignores -/

/-- C5: when a worker's poll of a task yields `Ready(value)`, the boxed value
is sent on the task's result channel when one is attached — appended to the
channel when the receiver is still alive, silently dropped when the join
handle was already dropped (channel closed) — the worker neither crashes nor
surfaces an error (it releases the guard and is back at the top of its
loop), and the task is discarded: it is not re-enqueued anywhere. -/
theorem completion_sends_or_ignores (s : SchedState) (w t : Nat) (task : Task)
    (fst fst' : FutState) (v : Nat)
    (hw : s.workers.get? w = some (.polling t))
    (htask : s.tasks.get? t = some task)
    (hfst : s.futStates.get? t = some fst)
    (hready : pollFuture task.future fst = (.ready v, fst')) :
    ∃ s', step s (.poll w) = some s' ∧
      s'.workers.get? w = some .idle ∧
      s'.global_queue = s.global_queue ∧
      s'.local_queues = s.local_queues ∧
      s'.locks = s.locks.set t none ∧
      (∀ ch c, task.result_sender = some ch → s.channels.get? ch = some c →
        s'.channels.get? ch =
          some (if c.closed then c else { c with buf := c.buf ++ [v] })) ∧
      (task.result_sender = none → s'.channels = s.channels) := by
  have hstep : step s (.poll w) = some { s with
      channels := sendResult s.channels task.result_sender v,
      futStates := s.futStates.set t fst',
      locks := s.locks.set t none,
      workers := s.workers.set w .idle } := by
    simp only [step, hw, htask, hfst, hready]
  refine ⟨_, hstep, ?_, rfl, rfl, rfl, ?_, ?_⟩
  · exact get?_set_self _ (lt_length_of_get?_eq_some hw)
  · intro ch c hs hc
    simp only [sendResult, hs, hc]
    by_cases hcl : c.closed = true
    · rw [if_pos hcl, if_pos hcl]
      exact hc
    · rw [if_neg hcl, if_neg hcl]
      exact get?_set_self _ (lt_length_of_get?_eq_some hc)
  · intro hs
    simp [sendResult, hs]

/-- State reached by: spawn an immediately-ready computation, drop its join
handle, then let worker 0 dequeue it and lock its future. -/
def c5State : SchedState :=
  { tasks := [{ future := ⟨0, 5⟩, result_sender := some 0 }]
    futStates := [{ polls := 0, completed := false }]
    locks := [some 0]
    channels := [{ closed := true, buf := [] }]
    global_queue := []
    local_queues := [[]]
    workers := [.polling 0]
    notifications := 1
    parkWaits := [] }

theorem completion_sends_or_ignores_witness :
    execTrace (initState 1) [.spawn ⟨0, 5⟩, .dropReceiver 0, .dequeue 0, .acquire 0] =
      some c5State ∧
    ∃ s', step c5State (.poll 0) = some s' ∧
      s'.workers.get? 0 = some .idle ∧
      s'.global_queue = c5State.global_queue ∧
      s'.local_queues = c5State.local_queues ∧
      s'.locks = c5State.locks.set 0 none ∧
      (∀ ch c,
        ({ future := ⟨0, 5⟩, result_sender := some 0 } : Task).result_sender = some ch →
        c5State.channels.get? ch = some c →
        s'.channels.get? ch =
          some (if c.closed then c else { c with buf := c.buf ++ [5] })) ∧
      (({ future := ⟨0, 5⟩, result_sender := some 0 } : Task).result_sender = none →
        s'.channels = c5State.channels) :=
  ⟨by decide,
   completion_sends_or_ignores c5State 0 0 { future := ⟨0, 5⟩, result_sender := some 0 }
     { polls := 0, completed := false } { polls := 0, completed := true } 5
     (by decide) (by decide) (by decide) (by decide)⟩

/-! ### C10: every spawned task carries a result sender -/

theorem get?_append_elim {α : Type} {l : List α} {a b : α} {i : Nat}
    (h : (l ++ [a]).get? i = some b) : l.get? i = some b ∨ b = a := by
  by_cases hi : i < l.length
  · left
    rw [get?_append_left _ hi] at h
    exact h
  · right
    have hlen := lt_length_of_get?_eq_some h
    have hi' : i = l.length := by
      simp only [List.length_append, List.length_cons, List.length_nil] at hlen
      omega
    subst hi'
    rw [List.get?_eq_getElem?, List.getElem?_concat_length] at h
    exact (Option.some.inj h).symm

theorem step_tasks_sender {s s' : SchedState} {l : Label}
    (hstep : step s l = some s')
    (hinv : ∀ t task, s.tasks.get? t = some task → task.result_sender.isSome) :
    ∀ t task, s'.tasks.get? t = some task → task.result_sender.isSome := by
  intro t task ht
  cases l with
  | spawn fs =>
      obtain rfl : (spawnOp s fs).1 = s' := Option.some.inj (by simpa only [step] using hstep)
      rcases get?_append_elim ht with hold | hnew
      · exact hinv t task hold
      · subst hnew
        rfl
  | wake t₀ =>
      simp only [step] at hstep
      split at hstep
      · obtain rfl := Option.some.inj hstep
        exact hinv t task ht
      · exact absurd hstep (by simp)
  | dropReceiver ch =>
      simp only [step] at hstep
      split at hstep
      · obtain rfl := Option.some.inj hstep
        exact hinv t task ht
      · exact absurd hstep (by simp)
  | dequeue w₀ =>
      simp only [step] at hstep
      split at hstep
      case _ => obtain rfl := Option.some.inj hstep; exact hinv t task ht
      case _ =>
        split at hstep
        case _ => obtain rfl := Option.some.inj hstep; exact hinv t task ht
        case _ => obtain rfl := Option.some.inj hstep; exact hinv t task ht
      case _ => exact absurd hstep (by simp)
  | acquire w₀ =>
      simp only [step] at hstep
      split at hstep
      case _ =>
        split at hstep
        case _ => obtain rfl := Option.some.inj hstep; exact hinv t task ht
        case _ => exact absurd hstep (by simp)
      case _ => exact absurd hstep (by simp)
  | poll w₀ =>
      simp only [step] at hstep
      split at hstep
      case _ =>
        split at hstep
        case _ =>
          split at hstep
          case _ => obtain rfl := Option.some.inj hstep; exact hinv t task ht
          case _ => obtain rfl := Option.some.inj hstep; exact hinv t task ht
          case _ => obtain rfl := Option.some.inj hstep; exact hinv t task ht
        case _ => exact absurd hstep (by simp)
      case _ => exact absurd hstep (by simp)

theorem execTrace_tasks_sender {ls : List Label} {s s' : SchedState}
    (h : execTrace s ls = some s')
    (hinv : ∀ t task, s.tasks.get? t = some task → task.result_sender.isSome) :
    ∀ t task, s'.tasks.get? t = some task → task.result_sender.isSome := by
  induction ls generalizing s with
  | nil =>
      obtain rfl := Option.some.inj h
      exact hinv
  | cons l rest ih =>
      simp only [execTrace] at h
      split at h
      case _ s₁ heq => exact ih h (step_tasks_sender heq hinv)
      case _ => exact absurd h (by simp)

/-- C10: in every reachable state, every Task ever constructed carries a
result sender (`result_sender = Some(..)`, set by `Handle::spawn` to the
fresh channel's send side), so the completion branch of `Worker::run` always
finds a sender attached and its implicit "no result sender" case is
unreachable for tasks that entered the ready-queue via `spawn`. -/
theorem spawned_tasks_have_result_sender (n : Nat) (ls : List Label) (s : SchedState)
    (h : execTrace (initState n) ls = some s) :
    ∀ t task, s.tasks.get? t = some task → task.result_sender.isSome :=
  execTrace_tasks_sender h (by
    intro t task ht
    simp [initState] at ht)

/-- State right after one `spawn` of an immediately-ready computation on a
one-worker runtime. -/
def c10State : SchedState :=
  { tasks := [{ future := ⟨0, 2⟩, result_sender := some 0 }]
    futStates := [{ polls := 0, completed := false }]
    locks := [none]
    channels := [{ closed := false, buf := [] }]
    global_queue := [0]
    local_queues := [[]]
    workers := [.idle]
    notifications := 1
    parkWaits := [] }

theorem spawned_tasks_have_result_sender_witness :
    ({ future := ⟨0, 2⟩, result_sender := some 0 } : Task).result_sender.isSome :=
  spawned_tasks_have_result_sender 1 [.spawn ⟨0, 2⟩] c10State (by decide) 0
    { future := ⟨0, 2⟩, result_sender := some 0 } (by decide)

/-! ### C7: shape of the Worker loop -/

theorem step_local_queues_empty {s s' : SchedState} {l : Label}
    (hstep : step s l = some s') (hinv : ∀ lq ∈ s.local_queues, lq = []) :
    ∀ lq ∈ s'.local_queues, lq = [] := by
  cases l with
  | spawn fs =>
      obtain rfl : (spawnOp s fs).1 = s' := Option.some.inj (by simpa only [step] using hstep)
      exact hinv
  | wake t₀ =>
      simp only [step] at hstep
      split at hstep
      · obtain rfl := Option.some.inj hstep
        exact hinv
      · exact absurd hstep (by simp)
  | dropReceiver ch =>
      simp only [step] at hstep
      split at hstep
      · obtain rfl := Option.some.inj hstep
        exact hinv
      · exact absurd hstep (by simp)
  | dequeue w₀ =>
      simp only [step] at hstep
      split at hstep
      case _ t₀ rest hw₀ hlq =>
        exact absurd (hinv _ (List.get?_mem hlq)) (by simp)
      case _ hw₀ hlq =>
        split at hstep
        case _ => obtain rfl := Option.some.inj hstep; exact hinv
        case _ => obtain rfl := Option.some.inj hstep; exact hinv
      case _ => exact absurd hstep (by simp)
  | acquire w₀ =>
      simp only [step] at hstep
      split at hstep
      case _ =>
        split at hstep
        case _ => obtain rfl := Option.some.inj hstep; exact hinv
        case _ => exact absurd hstep (by simp)
      case _ => exact absurd hstep (by simp)
  | poll w₀ =>
      simp only [step] at hstep
      split at hstep
      case _ =>
        split at hstep
        case _ =>
          split at hstep
          case _ => obtain rfl := Option.some.inj hstep; exact hinv
          case _ => obtain rfl := Option.some.inj hstep; exact hinv
          case _ => obtain rfl := Option.some.inj hstep; exact hinv
        case _ => exact absurd hstep (by simp)
      case _ => exact absurd hstep (by simp)

theorem execTrace_local_queues_empty {ls : List Label} {s s' : SchedState}
    (h : execTrace s ls = some s') (hinv : ∀ lq ∈ s.local_queues, lq = []) :
    ∀ lq ∈ s'.local_queues, lq = [] := by
  induction ls generalizing s with
  | nil =>
      obtain rfl := Option.some.inj h
      exact hinv
  | cons l rest ih =>
      simp only [execTrace] at h
      split at h
      case _ s₁ heq => exact ih h (step_local_queues_empty heq hinv)
      case _ => exact absurd h (by simp)

/-- C7: every iteration of the `Worker::run` loop proceeds in the fixed
order: non-blocking pop from the per-worker local queue — which the current
feed path never populates (first conjunct: in every reachable state every
local queue is empty) — else non-blocking pop from the shared ready-queue,
else park on the condvar with the bounded 100 ms timeout and return to the
top of the loop.  A dequeued task is handed to the same worker `w` inline
(`workers.set w (.locking t)`: that worker immediately proceeds to lock and
poll it), and an idle worker's loop step is always enabled — the loop has no
terminal state. -/
theorem worker_loop_structure :
    (∀ (n : Nat) (ls : List Label) (s : SchedState),
        execTrace (initState n) ls = some s → ∀ lq ∈ s.local_queues, lq = []) ∧
    parkTimeoutMs = 100 ∧
    (∀ (s : SchedState) (w : Nat) (lq : List Nat),
        s.workers.get? w = some .idle → s.local_queues.get? w = some lq →
        (step s (.dequeue w)).isSome ∧
        (∀ t rest, lq = t :: rest →
          step s (.dequeue w) = some { s with
            local_queues := s.local_queues.set w rest,
            workers := s.workers.set w (.locking t) }) ∧
        (∀ t rest, lq = [] → s.global_queue = t :: rest →
          step s (.dequeue w) = some { s with
            global_queue := rest,
            workers := s.workers.set w (.locking t) }) ∧
        (lq = [] → s.global_queue = [] →
          step s (.dequeue w) = some { s with
            parkWaits := s.parkWaits ++ [parkTimeoutMs] })) := by
  refine ⟨?_, rfl, ?_⟩
  · intro n ls s h
    exact execTrace_local_queues_empty h (by
      intro lq hm
      exact List.eq_of_mem_replicate hm)
  · intro s w lq hw hlq
    refine ⟨?_, ?_, ?_, ?_⟩
    · cases lq with
      | cons t rest =>
          simp only [step, hw, hlq]
          rfl
      | nil =>
          cases hg : s.global_queue with
          | cons t rest =>
              simp only [step, hw, hlq, hg]
              rfl
          | nil =>
              simp only [step, hw, hlq, hg]
              rfl
    · intro t rest hcons
      subst hcons
      simp only [step, hw, hlq]
    · intro t rest hnil hg
      subst hnil
      simp only [step, hw, hlq, hg]
    · intro hnil hg
      subst hnil
      simp only [step, hw, hlq, hg]

/-- State right after one `spawn` of a computation needing two polls on a
one-worker runtime: worker 0 idle, the task queued on the shared queue. -/
def c7State : SchedState :=
  { tasks := [{ future := ⟨2, 3⟩, result_sender := some 0 }]
    futStates := [{ polls := 0, completed := false }]
    locks := [none]
    channels := [{ closed := false, buf := [] }]
    global_queue := [0]
    local_queues := [[]]
    workers := [.idle]
    notifications := 1
    parkWaits := [] }

theorem worker_loop_structure_witness :
    ([] : List Nat) = [] ∧
    step c7State (.dequeue 0) = some { c7State with
      global_queue := [],
      workers := c7State.workers.set 0 (.locking 0) } ∧
    step (initState 1) (.dequeue 0) = some { initState 1 with
      parkWaits := (initState 1).parkWaits ++ [parkTimeoutMs] } :=
  ⟨worker_loop_structure.1 1 [.spawn ⟨2, 3⟩] c7State (by decide) [] (by decide),
   (worker_loop_structure.2.2 c7State 0 [] (by decide) (by decide)).2.2.1 0 [] rfl (by decide),
   (worker_loop_structure.2.2 (initState 1) 0 [] (by decide) (by decide)).2.2.2 rfl (by decide)⟩

/-! ### C6: suspension waits for an explicit wake -/

/-- Task `t` is off the scheduler: not in the shared ready-queue, not in any
local queue, not held (being locked or polled) by any worker; `t` is an
already-allocated task id, so later spawns always allocate fresh ids and
never recreate `t`. -/
def NotScheduled (s : SchedState) (t : Nat) : Prop :=
  t ∉ s.global_queue ∧
  (∀ lq ∈ s.local_queues, t ∉ lq) ∧
  (∀ ph ∈ s.workers, ph ≠ .locking t ∧ ph ≠ .polling t) ∧
  t < s.tasks.length ∧ t < s.futStates.length

instance (s : SchedState) (t : Nat) : Decidable (NotScheduled s t) := by
  unfold NotScheduled
  infer_instance

theorem step_not_scheduled {s s' : SchedState} {l : Label} {t : Nat}
    (hstep : step s l = some s') (hl : l ≠ .wake t) (hns : NotScheduled s t) :
    NotScheduled s' t ∧ s'.futStates.get? t = s.futStates.get? t := by
  obtain ⟨hg, hlocal, hworkers, hlen, hflen⟩ := hns
  cases l with
  | spawn fs =>
      obtain rfl : (spawnOp s fs).1 = s' := Option.some.inj (by simpa only [step] using hstep)
      simp only [spawnOp]
      refine ⟨⟨?_, hlocal, hworkers, ?_, ?_⟩, ?_⟩
      · simp only [List.mem_append, List.mem_cons, List.not_mem_nil, or_false]
        rintro (h | h)
        · exact hg h
        · omega
      · simp only [List.length_append, List.length_cons, List.length_nil]
        omega
      · simp only [List.length_append, List.length_cons, List.length_nil]
        omega
      · exact get?_append_left _ hflen
  | wake u =>
      have hut : u ≠ t := by
        intro h
        exact hl (h ▸ rfl)
      simp only [step] at hstep
      split at hstep
      · obtain rfl := Option.some.inj hstep
        refine ⟨⟨?_, hlocal, hworkers, hlen, hflen⟩, rfl⟩
        simp only [List.mem_append, List.mem_cons, List.not_mem_nil, or_false]
        rintro (h | h)
        · exact hg h
        · exact hut h.symm
      · exact absurd hstep (by simp)
  | dropReceiver ch =>
      simp only [step] at hstep
      split at hstep
      · obtain rfl := Option.some.inj hstep
        exact ⟨⟨hg, hlocal, hworkers, hlen, hflen⟩, rfl⟩
      · exact absurd hstep (by simp)
  | dequeue w₀ =>
      simp only [step] at hstep
      split at hstep
      case _ t₀ rest hw₀ hlq =>
        have hnotin : t ∉ t₀ :: rest := hlocal _ (List.get?_mem hlq)
        obtain rfl := Option.some.inj hstep
        refine ⟨⟨hg, ?_, ?_, hlen, hflen⟩, rfl⟩
        · intro lq' hm
          rcases List.mem_or_eq_of_mem_set hm with h | h
          · exact hlocal _ h
          · subst h
            intro hc
            exact hnotin (List.mem_cons_of_mem _ hc)
        · intro ph hm
          rcases List.mem_or_eq_of_mem_set hm with h | h
          · exact hworkers _ h
          · subst h
            constructor
            · intro hc
              injection hc with he
              exact hnotin (by rw [← he]; exact List.mem_cons_self _ _)
            · intro hc
              exact WorkerPhase.noConfusion hc
      case _ hw₀ hlq =>
        split at hstep
        case _ t₀ rest heq =>
          obtain rfl := Option.some.inj hstep
          rw [heq] at hg
          have htt : t₀ ≠ t := by
            intro h
            exact hg (h ▸ List.mem_cons_self _ _)
          refine ⟨⟨?_, hlocal, ?_, hlen, hflen⟩, rfl⟩
          · intro hc
            exact hg (List.mem_cons_of_mem _ hc)
          · intro ph hm
            rcases List.mem_or_eq_of_mem_set hm with h | h
            · exact hworkers _ h
            · subst h
              constructor
              · intro hc
                injection hc with he
                exact htt he
              · intro hc
                exact WorkerPhase.noConfusion hc
        case _ heq =>
          obtain rfl := Option.some.inj hstep
          exact ⟨⟨hg, hlocal, hworkers, hlen, hflen⟩, rfl⟩
      case _ => exact absurd hstep (by simp)
  | acquire w₀ =>
      simp only [step] at hstep
      split at hstep
      case _ t₀ hw₀ =>
        split at hstep
        case _ hl₀ =>
          obtain rfl := Option.some.inj hstep
          have htt : t₀ ≠ t := by
            intro h
            exact (hworkers _ (List.get?_mem hw₀)).1 (h ▸ rfl)
          refine ⟨⟨hg, hlocal, ?_, hlen, hflen⟩, rfl⟩
          intro ph hm
          rcases List.mem_or_eq_of_mem_set hm with h | h
          · exact hworkers _ h
          · subst h
            constructor
            · intro hc
              exact WorkerPhase.noConfusion hc
            · intro hc
              injection hc with he
              exact htt he
        case _ => exact absurd hstep (by simp)
      case _ => exact absurd hstep (by simp)
  | poll w₀ =>
      simp only [step] at hstep
      split at hstep
      case _ t₀ hw₀ =>
        have htt : t₀ ≠ t := by
          intro h
          exact (hworkers _ (List.get?_mem hw₀)).2 (h ▸ rfl)
        split at hstep
        case _ task fst htask hfst =>
          split at hstep
          case _ fst' hpoll =>
            obtain rfl := Option.some.inj hstep
            refine ⟨⟨hg, hlocal, ?_, hlen, ?_⟩, ?_⟩
            · intro ph hm
              rcases List.mem_or_eq_of_mem_set hm with h | h
              · exact hworkers _ h
              · subst h
                exact ⟨fun hc => WorkerPhase.noConfusion hc,
                       fun hc => WorkerPhase.noConfusion hc⟩
            · simpa using hflen
            · exact get?_set_ne _ _ _ htt
          case _ v fst' hpoll =>
            obtain rfl := Option.some.inj hstep
            refine ⟨⟨hg, hlocal, ?_, hlen, ?_⟩, ?_⟩
            · intro ph hm
              rcases List.mem_or_eq_of_mem_set hm with h | h
              · exact hworkers _ h
              · subst h
                exact ⟨fun hc => WorkerPhase.noConfusion hc,
                       fun hc => WorkerPhase.noConfusion hc⟩
            · simpa using hflen
            · exact get?_set_ne _ _ _ htt
          case _ fst' hpoll =>
            obtain rfl := Option.some.inj hstep
            refine ⟨⟨hg, hlocal, ?_, hlen, ?_⟩, ?_⟩
            · intro ph hm
              rcases List.mem_or_eq_of_mem_set hm with h | h
              · exact hworkers _ h
              · subst h
                exact ⟨fun hc => WorkerPhase.noConfusion hc,
                       fun hc => WorkerPhase.noConfusion hc⟩
            · simpa using hflen
            · exact get?_set_ne _ _ _ htt
        case _ => exact absurd hstep (by simp)
      case _ => exact absurd hstep (by simp)

theorem execTrace_not_scheduled {ls : List Label} {s s' : SchedState} {t : Nat}
    (h : execTrace s ls = some s') (hnw : Label.wake t ∉ ls) (hns : NotScheduled s t) :
    NotScheduled s' t ∧ s'.futStates.get? t = s.futStates.get? t := by
  induction ls generalizing s with
  | nil =>
      obtain rfl := Option.some.inj h
      exact ⟨hns, rfl⟩
  | cons l rest ih =>
      simp only [execTrace] at h
      split at h
      case _ s₁ heq =>
          have hl : l ≠ .wake t := by
            intro he
            exact hnw (he ▸ List.mem_cons_self _ _)
          have hrest : Label.wake t ∉ rest := fun hm => hnw (List.mem_cons_of_mem _ hm)
          obtain ⟨hns₁, hfs₁⟩ := step_not_scheduled heq hl hns
          obtain ⟨hns', hfs'⟩ := ih h hrest hns₁
          exact ⟨hns', hfs'.trans hfs₁⟩
      case _ => exact absurd h (by simp)

theorem step_queue_counts {s s' : SchedState} {l : Label} {t : Nat}
    (hstep : step s l = some s')
    (hspawn : ∀ fs, l ≠ .spawn fs) (hwake : ∀ u, l ≠ .wake u) :
    s'.global_queue.count t ≤ s.global_queue.count t ∧
    (∀ w lq, s.local_queues.get? w = some lq →
      ∃ lq', s'.local_queues.get? w = some lq' ∧ lq'.count t ≤ lq.count t) := by
  cases l with
  | spawn fs => exact absurd rfl (hspawn fs)
  | wake u => exact absurd rfl (hwake u)
  | dropReceiver ch =>
      simp only [step] at hstep
      split at hstep
      · obtain rfl := Option.some.inj hstep
        exact ⟨Nat.le_refl _, fun w lq h => ⟨lq, h, Nat.le_refl _⟩⟩
      · exact absurd hstep (by simp)
  | dequeue w₀ =>
      simp only [step] at hstep
      split at hstep
      case _ t₀ rest hw₀ hlq =>
        obtain rfl := Option.some.inj hstep
        refine ⟨Nat.le_refl _, ?_⟩
        intro w lq h
        by_cases hww : w₀ = w
        · subst hww
          rw [hlq] at h
          obtain rfl := Option.some.inj h
          refine ⟨rest, get?_set_self _ (lt_length_of_get?_eq_some hlq), ?_⟩
          rw [List.count_cons]
          exact Nat.le_add_right _ _
        · refine ⟨lq, ?_, Nat.le_refl _⟩
          rw [get?_set_ne _ _ _ hww]
          exact h
      case _ hw₀ hlq =>
        split at hstep
        case _ t₀ rest heq =>
          obtain rfl := Option.some.inj hstep
          refine ⟨?_, fun w lq h => ⟨lq, h, Nat.le_refl _⟩⟩
          rw [heq, List.count_cons]
          exact Nat.le_add_right _ _
        case _ heq =>
          obtain rfl := Option.some.inj hstep
          exact ⟨Nat.le_refl _, fun w lq h => ⟨lq, h, Nat.le_refl _⟩⟩
      case _ => exact absurd hstep (by simp)
  | acquire w₀ =>
      simp only [step] at hstep
      split at hstep
      case _ =>
        split at hstep
        case _ =>
          obtain rfl := Option.some.inj hstep
          exact ⟨Nat.le_refl _, fun w lq h => ⟨lq, h, Nat.le_refl _⟩⟩
        case _ => exact absurd hstep (by simp)
      case _ => exact absurd hstep (by simp)
  | poll w₀ =>
      simp only [step] at hstep
      split at hstep
      case _ =>
        split at hstep
        case _ =>
          split at hstep
          case _ =>
            obtain rfl := Option.some.inj hstep
            exact ⟨Nat.le_refl _, fun w lq h => ⟨lq, h, Nat.le_refl _⟩⟩
          case _ =>
            obtain rfl := Option.some.inj hstep
            exact ⟨Nat.le_refl _, fun w lq h => ⟨lq, h, Nat.le_refl _⟩⟩
          case _ =>
            obtain rfl := Option.some.inj hstep
            exact ⟨Nat.le_refl _, fun w lq h => ⟨lq, h, Nat.le_refl _⟩⟩
        case _ => exact absurd hstep (by simp)
      case _ => exact absurd hstep (by simp)

/-- C6: worker steps never enqueue.  First conjunct: any single step that is
not a `spawn` and not a `wake` — in particular a worker's handling of a
`Pending` poll — never increases a task's occurrence count in the shared
ready-queue nor in any local queue; the only enqueuing actions are `spawn`
and the wake protocol.  Second conjunct: a task that is off the scheduler
(suspended, not queued anywhere) stays off and its future state is never
touched again along any interleaving that contains no wake of it — a
suspended, never-woken task is never resumed. -/
theorem suspended_needs_wake :
    (∀ (s s' : SchedState) (l : Label) (t : Nat), step s l = some s' →
        (∀ fs, l ≠ .spawn fs) → (∀ u, l ≠ .wake u) →
        s'.global_queue.count t ≤ s.global_queue.count t ∧
        (∀ w lq, s.local_queues.get? w = some lq →
          ∃ lq', s'.local_queues.get? w = some lq' ∧ lq'.count t ≤ lq.count t)) ∧
    (∀ (s s' : SchedState) (ls : List Label) (t : Nat), execTrace s ls = some s' →
        Label.wake t ∉ ls → NotScheduled s t →
        NotScheduled s' t ∧ s'.futStates.get? t = s.futStates.get? t) :=
  ⟨fun _ _ _ _ hstep hspawn hwake => step_queue_counts hstep hspawn hwake,
   fun _ _ _ _ h hnw hns => execTrace_not_scheduled h hnw hns⟩

/-- State of a one-worker runtime after a computation needing five polls was
spawned, dequeued and polled once: it is suspended and off the scheduler. -/
def c6State : SchedState :=
  { tasks := [{ future := ⟨5, 9⟩, result_sender := some 0 }]
    futStates := [{ polls := 1, completed := false }]
    locks := [none]
    channels := [{ closed := false, buf := [] }]
    global_queue := []
    local_queues := [[]]
    workers := [.idle]
    notifications := 1
    parkWaits := [] }

/-- End state of the C6 witness interleaving: the worker parked once, a
second unrelated task was spawned and completed; task 0 was never woken. -/
def c6State' : SchedState :=
  { tasks := [{ future := ⟨5, 9⟩, result_sender := some 0 },
              { future := ⟨0, 3⟩, result_sender := some 1 }]
    futStates := [{ polls := 1, completed := false },
                  { polls := 0, completed := true }]
    locks := [none, none]
    channels := [{ closed := false, buf := [] }, { closed := false, buf := [3] }]
    global_queue := []
    local_queues := [[]]
    workers := [.idle]
    notifications := 2
    parkWaits := [parkTimeoutMs] }

theorem suspended_needs_wake_witness :
    (({ c6State with parkWaits := [parkTimeoutMs] } : SchedState).global_queue.count 0 ≤
        c6State.global_queue.count 0 ∧
      (∀ w lq, c6State.local_queues.get? w = some lq →
        ∃ lq', ({ c6State with parkWaits := [parkTimeoutMs] } : SchedState).local_queues.get? w
          = some lq' ∧ lq'.count 0 ≤ lq.count 0)) ∧
    (NotScheduled c6State' 0 ∧ c6State'.futStates.get? 0 = c6State.futStates.get? 0) :=
  ⟨suspended_needs_wake.1 c6State { c6State with parkWaits := [parkTimeoutMs] }
     (.dequeue 0) 0 (by decide)
     (fun _ h => Label.noConfusion h) (fun _ h => Label.noConfusion h),
   suspended_needs_wake.2 c6State c6State'
     [.dequeue 0, .spawn ⟨0, 3⟩, .dequeue 0, .acquire 0, .poll 0] 0
     (by decide) (by decide) (by decide)⟩

/-! ### C8: wake after completion

The claim says a post-completion wake never causes a crash: either re-polling
the finished computation is a guaranteed no-op, or the worker detects the
completed task and discards it.  The code does neither.  `wake_by_ref`
(runtime.rs:215-225) happily pushes a completed task back on the queue, and
`Worker::run` (runtime.rs:180-200) polls whatever it dequeues with no
completion check.  Every spawned computation is the async-block wrapper of
runtime.rs:48-51, and a Rust async block panics when polled again after it
has returned `Ready` ("resumed after completion"), so the dequeuing worker
panics.  The theorem runs exactly that scenario: a task completes (its value
is delivered once), is then woken, and the worker that re-polls it ends
panicked while the result channel still holds the single value. -/

/-- C8 failing run: spawn an immediately-ready computation on a one-worker
runtime, let the worker complete it, then wake the completed task; the
worker dequeues it, re-polls the completed wrapper future and panics.  The
result was delivered exactly once before the crash (no duplicate
delivery). -/
theorem wake_after_completion_panics :
    Option.map (fun s => (s.workers.get? 0, s.channels))
      (execTrace (initState 1)
        [.spawn ⟨0, 42⟩, .dequeue 0, .acquire 0, .poll 0,
         .wake 0, .dequeue 0, .acquire 0, .poll 0]) =
      some (some .panicked, [{ closed := false, buf := [42] }]) := by
  decide

end AsyncRuntime
